import Mathlib

/-!
# Verification of the fulmine OAuth2 grant/token lifecycle (`fulmine/models.py`)

A shallow embedding of the grant, authorization-code, and refresh-token
state machine of `fulmine/models.py`, together with theorems settling the
frozen claims about it.

Modelling conventions, fixed once here:

* Django model instances become Lean structures; a saved mutation of an
  instance (`self.save()`) is modelled by returning the updated record.
* Database querysets become lists of records; a manager `filter(...)`
  becomes `List.filter`.
* Timestamps (`utcnow()`, `expires`) are naturals; the current time is an
  explicit `now` argument.
* Randomly generated token strings (`random_b64`, `Token`,
  `new_auth_code`, `new_b64_access_token` — all produced by
  `fulmine/tokens.py`, which only supplies randomness) are injected as
  explicit string arguments at each call site.
* A `SeparatedValuesField` value is `Option (List String)` where the code
  distinguishes the unset/blank case (`to_python` returns `None` for a
  blank value), and `List String` where the code never leaves it unset
  (an `AuthorizationGrant`'s scope, set at creation).
* `raise`-ing code returns `Except String α`, carrying the message of the
  raised exception.
* Python's `set(a) & set(b)` has unspecified iteration order; the
  embedding fixes the first-occurrence-order representative
  `a.dedup.filter (· ∈ b)`, which is set-equal to it.  All theorems about
  such values are stated up to set membership.
-/

/-- `AuthorizationGrant` model (models.py lines 64-74).  `user` is the
opaque Django user reference, modelled by its id; `pk` is the database
primary key (`self.pk`, stored into the session at mint time). -/
structure AuthorizationGrant where
  pk : Nat
  client_id : String
  auth_backend : String
  user : Nat
  scope : List String
  revoked : Bool
deriving DecidableEq, Repr

/-- The Django session entry written by
`AuthorizationGrant.new_access_token` (models.py lines 85-100):
one field per `session[...] = ...` assignment, plus the expiry installed
by `session.set_expiry`.  Persisting it with `save(must_create=True)` is
the external session backend's job; the embedding returns the entry that
is stored. -/
structure SessionEntry where
  secret : String
  client_id : String
  deploy_id : String
  user : Nat
  auth_backend : String
  scope : List String
  revoked : Bool
  grant : Nat
  expiry_seconds : Nat
deriving DecidableEq, Repr

/-- Modelled from the spec: `parse_bearer` lives in `fulmine/tokens.py`,
which is not under `src/`.  Per the spec's bearer-token wire format, the
token string splits into a fixed-length public session key (its first
`session_key_bytes` units) and the remaining secret. -/
def parse_bearer (access_token : String) (session_key_bytes : Nat) :
    String × String :=
  (access_token.take session_key_bytes, access_token.drop session_key_bytes)

/-- Python truthiness of an optional scope list: `None` and `[]` are
falsy (`if scope:` in models.py line 92). -/
def scopeTruthy : Option (List String) → Bool
  | none => false
  | some s => !s.isEmpty

/-- Result of `AuthorizationGrant.new_access_token`: the returned bearer
token text (`unicode(access_token)`), the session key it is filed under,
and the session entry created for it. -/
structure MintResult where
  token_text : String
  session_key : String
  session : SessionEntry
deriving DecidableEq, Repr

/-- `AuthorizationGrant.new_access_token` (models.py lines 81-101).
`access_token` stands for the random token drawn by
`new_access_token()`; `session_key_bytes` is the `SESSION_KEY_BYTES`
configuration constant (`fulmine/settings.py`, not under `src/`).
Note the source performs no check of `self.revoked`. -/
def AuthorizationGrant.new_access_token (g : AuthorizationGrant)
    (access_token : String) (session_key_bytes : Nat)
    (expires_in : Nat) (deploy_id : String := "")
    (scope : Option (List String) := none) : MintResult :=
  let (session_key, secret) := parse_bearer access_token session_key_bytes
  let token_scope :=
    if scopeTruthy scope then
      ((scope.getD []).dedup.filter (fun x => decide (x ∈ g.scope)))
    else
      g.scope
  { token_text := access_token
    session_key := session_key
    session :=
      { secret := secret
        client_id := g.client_id
        deploy_id := deploy_id
        user := g.user
        auth_backend := g.auth_backend
        scope := token_scope
        revoked := false
        grant := g.pk
        expiry_seconds := expires_in } }

/-- C3: the effective token scope of `new_access_token` is the
intersection of the requested scope with the grant's scope when a
non-empty scope is requested, the grant's full scope when none (or a
blank one) is requested, and in every case a subset of the grant's
scope.  Set-level statement (Python set order is unspecified). -/
theorem c3_effective_scope_intersection (g : AuthorizationGrant)
    (access_token : String) (skb expires_in : Nat) (deploy_id : String)
    (scope : Option (List String)) :
    (∀ s, scope = some s → s ≠ [] →
      ∀ x, x ∈ (g.new_access_token access_token skb expires_in deploy_id
                  scope).session.scope ↔ x ∈ s ∧ x ∈ g.scope) ∧
    ((scope = none ∨ scope = some []) →
      (g.new_access_token access_token skb expires_in deploy_id
        scope).session.scope = g.scope) ∧
    (∀ x, x ∈ (g.new_access_token access_token skb expires_in deploy_id
                  scope).session.scope → x ∈ g.scope) := by
  refine ⟨?_, ?_, ?_⟩
  · rintro s rfl hs x
    simp [AuthorizationGrant.new_access_token, scopeTruthy,
      List.isEmpty_iff, hs, List.mem_filter, List.mem_dedup, and_comm]
  · rintro (rfl | rfl) <;>
      simp [AuthorizationGrant.new_access_token, scopeTruthy]
  · intro x hx
    by_cases h : scopeTruthy scope = true
    · simp only [AuthorizationGrant.new_access_token, h, if_pos] at hx
      simp only [List.mem_filter, decide_eq_true_eq] at hx
      exact hx.2
    · simp only [AuthorizationGrant.new_access_token, h] at hx
      simpa using hx

/-- Witness for `c3_effective_scope_intersection` at a concrete input. -/
theorem c3_effective_scope_intersection_witness :
    ∀ x, x ∈ (({ pk := 1, client_id := "c1", auth_backend := "b",
                  user := 7, scope := ["read", "write"], revoked := false } :
                AuthorizationGrant).new_access_token "tok" 8 3600 ""
                (some ["read", "admin"])).session.scope ↔
      x ∈ ["read", "admin"] ∧ x ∈ ["read", "write"] := by
  intro x
  exact (c3_effective_scope_intersection _ "tok" 8 3600 ""
    (some ["read", "admin"])).1 _ rfl (by decide) x

/-- A concrete revoked grant, used to exhibit the missing revocation
check in `new_access_token`. -/
def revokedGrantEx : AuthorizationGrant :=
  { pk := 1, client_id := "c1", auth_backend := "b", user := 7,
    scope := ["read", "write"], revoked := true }

/-- C4 counterexample: a revoked grant still returns a bearer token
string and still produces a session entry — `new_access_token`
(models.py lines 81-101) contains no check of `self.revoked`, so the
claimed `GrantRevoked` refusal never happens. -/
theorem c4_counterexample :
    revokedGrantEx.revoked = true ∧
    (revokedGrantEx.new_access_token "tok" 2 3600 "" none).token_text
      = "tok" ∧
    (revokedGrantEx.new_access_token "tok" 2 3600 "" none).session
      = { secret := "k", client_id := "c1", deploy_id := "", user := 7,
          auth_backend := "b", scope := ["read", "write"],
          revoked := false, grant := 1, expiry_seconds := 3600 } := by
  refine ⟨rfl, rfl, ?_⟩
  decide

/-- C4 amended: `new_access_token` ignores the grant's `revoked` flag
entirely — minting from a revoked grant behaves exactly as from an
unrevoked one, creating the session entry and returning the bearer
token text. -/
theorem c4_amended_mint_ignores_revoked (g : AuthorizationGrant)
    (access_token : String) (skb expires_in : Nat) (deploy_id : String)
    (scope : Option (List String)) :
    ({ g with revoked := true } :
        AuthorizationGrant).new_access_token access_token skb expires_in
        deploy_id scope
      = ({ g with revoked := false } :
        AuthorizationGrant).new_access_token access_token skb expires_in
        deploy_id scope ∧
    (g.new_access_token access_token skb expires_in deploy_id
        scope).token_text = access_token := by
  exact ⟨rfl, rfl⟩

/-- The owning reference stored in a `RefreshToken`'s `grant` field.
The field is declared `models.ForeignKey(AuthorizationGrant)`
(models.py line 172), but the rotation path assigns the refresh-token
instance itself to it (`refresh_token.grant = self`, line 190), so the
embedding represents both possibilities.  `ofRefresh` carries the five
fields of the assigned `RefreshToken` snapshot. -/
inductive RefreshOwner where
  | ofGrant (g : AuthorizationGrant)
  | ofRefresh (token : String) (deploy_id : String) (grant : RefreshOwner)
      (scope : Option (List String)) (revoked : Bool)
deriving DecidableEq, Repr

/-- `RefreshToken` model (models.py lines 167-176).  `token` is the
primary key (a random string injected at creation). -/
structure RefreshToken where
  token : String
  deploy_id : String
  grant : RefreshOwner
  scope : Option (List String)
  revoked : Bool
deriving DecidableEq, Repr

/-- The `RefreshOwner` snapshot of a refresh-token instance, as captured
by the assignment `refresh_token.grant = self`. -/
def RefreshToken.toOwner (rt : RefreshToken) : RefreshOwner :=
  .ofRefresh rt.token rt.deploy_id rt.grant rt.scope rt.revoked

/-- `TemporaryGrant` model, the authorization code (models.py
lines 116-129).  `expires` is the absolute expiry timestamp
(`auth_code_expires()` = issuance time + `AUTH_CODE_EXPIRE_SECONDS`). -/
structure TemporaryGrant where
  auth_code : String
  expires : Nat
  grant : AuthorizationGrant
  scope : Option (List String)
  deploy_id : String
  state : String
  redirect_uri : String
  consumed : Bool
deriving DecidableEq, Repr

/-- What an `emit_token` call hands back on success: the mint result of
the access token and the optionally created refresh token (whose
`token` field is the returned `refresh_token_text`). -/
structure EmitResult where
  access : MintResult
  refresh : Option RefreshToken
deriving DecidableEq, Repr

/-- `TemporaryGrant.emit_token` (models.py lines 131-155).
`access_token` / `refresh_token_str` inject the random strings drawn by
`new_access_token()` and the `RefreshToken` default.  The first
component of the result is the saved `self` (with `consumed := true`).
The created refresh token copies `deploy_id` but not `scope`
(lines 146-150), so its `scope` field stays unset. -/
def TemporaryGrant.emit_token (temp : TemporaryGrant)
    (access_token refresh_token_str : String)
    (session_key_bytes expires_in : Nat) (emit_refresh : Bool := true) :
    Except String (TemporaryGrant × EmitResult) :=
  if temp.consumed then
    .error "consumed grant can\x27t emit tokens"
  else
    let saved : TemporaryGrant := { temp with consumed := true }
    let access := temp.grant.new_access_token access_token
      session_key_bytes expires_in temp.deploy_id temp.scope
    let refresh : Option RefreshToken :=
      if emit_refresh then
        some { token := refresh_token_str
               grant := .ofGrant temp.grant
               deploy_id := temp.deploy_id
               scope := none
               revoked := false }
      else
        none
    .ok (saved, { access := access, refresh := refresh })

/-- `RefreshToken.emit_token` (models.py lines 178-198).  On rotation
(`emit_refresh = true`) the replacement's `grant` field receives `self`
— the just-revoked refresh-token instance, after `self.revoked = True`
— exactly as line 190 writes it, even though the field is declared as a
foreign key to `AuthorizationGrant` (under Django this assignment is a
type error).  Minting dereferences `self.grant` as a grant, which is
only meaningful for an `ofGrant` owner; the `ofRefresh` case has no
defined behaviour in the source (attribute error) and is embedded as an
error. -/
def RefreshToken.emit_token (rt : RefreshToken)
    (access_token new_refresh_str : String)
    (session_key_bytes expires_in : Nat) (emit_refresh : Bool := false) :
    Except String (RefreshToken × EmitResult) :=
  if rt.revoked then
    .error "revoked refresh token can\x27t be used"
  else
    match rt.grant with
    | .ofRefresh _ _ _ _ _ =>
        .error "owning reference is not an AuthorizationGrant"
    | .ofGrant g =>
        let access := g.new_access_token access_token session_key_bytes
          expires_in rt.deploy_id rt.scope
        if emit_refresh then
          let saved : RefreshToken := { rt with revoked := true }
          let replacement : RefreshToken :=
            { token := new_refresh_str
              grant := saved.toOwner
              deploy_id := rt.deploy_id
              scope := rt.scope
              revoked := false }
          .ok (saved, { access := access, refresh := some replacement })
        else
          .ok (rt, { access := access, refresh := none })

/-- An unrevoked grant shared by the concrete examples below. -/
def grantEx : AuthorizationGrant :=
  { pk := 1, client_id := "c1", auth_backend := "b", user := 7,
    scope := ["read", "write"], revoked := false }

/-- A concrete authorization code that is already in the consumed
state. -/
def consumedTempEx : TemporaryGrant :=
  { auth_code := "code1", expires := 100, grant := grantEx,
    scope := some ["read"], deploy_id := "", state := "s1",
    redirect_uri := "https://app/cb", consumed := true }

/-- C1 counterexample: on a `TemporaryGrant` that is in the consumed
state, the *first* `emit_token` call already fails — it raises
"consumed grant can't emit tokens" (models.py lines 136-137) instead of
returning an access token as the claim states.  The consumed state is
the postcondition of emission, not its precondition. -/
theorem c1_counterexample :
    consumedTempEx.consumed = true ∧
    consumedTempEx.emit_token "at" "rt" 2 3600 true
      = .error "consumed grant can\x27t emit tokens" := by
  exact ⟨rfl, rfl⟩

/-- C1 amended: for every `TemporaryGrant` in the *unconsumed* state,
`emit_token` succeeds exactly once — the first call marks the instance
consumed and returns an access token (and a refresh token exactly when
`emit_refresh` is true), and any second call on the saved instance
fails with the state error while emitting nothing. -/
theorem c1_amended_emit_once (temp : TemporaryGrant)
    (h : temp.consumed = false)
    (at1 rt1 at2 rt2 : String) (skb e1 e2 : Nat) (er1 er2 : Bool) :
    ∃ res : EmitResult,
      temp.emit_token at1 rt1 skb e1 er1
        = .ok ({ temp with consumed := true }, res) ∧
      res.refresh.isSome = er1 ∧
      ({ temp with consumed := true } :
          TemporaryGrant).emit_token at2 rt2 skb e2 er2
        = .error "consumed grant can\x27t emit tokens" := by
  refine ⟨{ access := temp.grant.new_access_token at1 skb e1
              temp.deploy_id temp.scope,
            refresh := if er1 then
                some { token := rt1, grant := .ofGrant temp.grant,
                       deploy_id := temp.deploy_id, scope := none,
                       revoked := false }
              else none }, ?_, ?_, ?_⟩
  · simp [TemporaryGrant.emit_token, h]
  · cases er1 <;> simp
  · simp [TemporaryGrant.emit_token]

/-- Witness for `c1_amended_emit_once` at a concrete unconsumed code. -/
theorem c1_amended_emit_once_witness :
    ∃ res : EmitResult,
      ({ consumedTempEx with consumed := false } :
          TemporaryGrant).emit_token "at" "rt" 2 3600 true
        = .ok (consumedTempEx, res) ∧
      res.refresh.isSome = true ∧
      consumedTempEx.emit_token "at2" "rt2" 2 3600 true
        = .error "consumed grant can\x27t emit tokens" := by
  exact c1_amended_emit_once { consumedTempEx with consumed := false }
    rfl "at" "rt" "at2" "rt2" 2 3600 3600 true true

/-- C5: rotating an unrevoked refresh token (with `emit_refresh = true`)
revokes it, creates a replacement carrying the same scope and deploy_id
whose token string is the freshly drawn one (distinct from the
original's), returns the new access and refresh tokens, and any later
`emit_token` call on the (now saved, revoked) original fails with the
revoked-token error, minting nothing.  The freshness of the random draw
`new_refresh_str` is a hypothesis: `fulmine/tokens.py`'s generator is
random, so distinctness holds up to collision. -/
theorem c5_rotation_single_use (rt : RefreshToken)
    (g : AuthorizationGrant) (hrev : rt.revoked = false)
    (hg : rt.grant = .ofGrant g)
    (access_token new_refresh_str at2 rt2 : String) (skb e1 e2 : Nat)
    (er2 : Bool) (hfresh : new_refresh_str ≠ rt.token) :
    ∃ res : EmitResult, ∃ replacement : RefreshToken,
      rt.emit_token access_token new_refresh_str skb e1 true
        = .ok ({ rt with revoked := true }, res) ∧
      res.refresh = some replacement ∧
      res.access = g.new_access_token access_token skb e1 rt.deploy_id
        rt.scope ∧
      replacement.scope = rt.scope ∧
      replacement.deploy_id = rt.deploy_id ∧
      replacement.token = new_refresh_str ∧
      replacement.token ≠ rt.token ∧
      ({ rt with revoked := true } :
          RefreshToken).emit_token at2 rt2 skb e2 er2
        = .error "revoked refresh token can\x27t be used" := by
  refine ⟨{ access := g.new_access_token access_token skb e1
                        rt.deploy_id rt.scope,
            refresh := some { token := new_refresh_str,
                              grant := ({ rt with revoked := true } :
                                RefreshToken).toOwner,
                              deploy_id := rt.deploy_id,
                              scope := rt.scope,
                              revoked := false } },
          { token := new_refresh_str,
            grant := ({ rt with revoked := true } :
              RefreshToken).toOwner,
            deploy_id := rt.deploy_id, scope := rt.scope,
            revoked := false }, ?_, rfl, rfl, rfl, rfl, rfl, hfresh, ?_⟩
  · simp [RefreshToken.emit_token, hrev, hg]
  · simp [RefreshToken.emit_token]

/-- A concrete unrevoked refresh token owned by `grantEx`. -/
def refreshEx : RefreshToken :=
  { token := "orig", deploy_id := "d", grant := .ofGrant grantEx,
    scope := some ["read", "write"], revoked := false }

/-- Witness for `c5_rotation_single_use` at a concrete refresh token. -/
theorem c5_rotation_single_use_witness :
    ∃ res : EmitResult, ∃ replacement : RefreshToken,
      refreshEx.emit_token "at" "fresh" 2 3600 true
        = .ok ({ refreshEx with revoked := true }, res) ∧
      res.refresh = some replacement ∧
      res.access = grantEx.new_access_token "at" 2 3600
        refreshEx.deploy_id refreshEx.scope ∧
      replacement.scope = refreshEx.scope ∧
      replacement.deploy_id = refreshEx.deploy_id ∧
      replacement.token = "fresh" ∧
      replacement.token ≠ refreshEx.token ∧
      ({ refreshEx with revoked := true } :
          RefreshToken).emit_token "at2" "rt2" 2 3600 false
        = .error "revoked refresh token can\x27t be used" := by
  exact c5_rotation_single_use refreshEx grantEx rfl rfl
    "at" "fresh" "at2" "rt2" 2 3600 3600 false (by decide)

/-- C6: evaluated at a concrete rotation, the replacement refresh
token's owning reference is the just-revoked refresh-token instance
(`refresh_token.grant = self`, models.py line 190) — not the original
`AuthorizationGrant` the rotated token descends from, which is what the
`ForeignKey(AuthorizationGrant)` declaration (line 172) and the spec
require. -/
theorem c6_replacement_owner_is_old_token :
    (refreshEx.emit_token "at" "fresh" 2 3600 true).map
        (fun r => r.2.refresh.map (fun nr => nr.grant))
      = .ok (some (({ refreshEx with revoked := true } :
          RefreshToken).toOwner)) ∧
    ({ refreshEx with revoked := true } : RefreshToken).toOwner
      ≠ RefreshOwner.ofGrant grantEx := by
  exact ⟨rfl, by decide⟩

/-- C10: exchanging a code with `emit_refresh = true` creates the
refresh token with its `scope` field unset (models.py lines 146-150
copy `deploy_id` but not `scope`); consequently a later mint from that
refresh token passes `scope = None` to `new_access_token`, so the
resulting session entry carries the grant's *full* scope — even when
the redeemed code's scope was a proper subset of it. -/
theorem c10_refresh_token_drops_code_scope (temp : TemporaryGrant)
    (h : temp.consumed = false) (at1 rt1 at2 rt2 : String)
    (skb e1 skb2 e2 : Nat) :
    ∃ res : EmitResult, ∃ refresh : RefreshToken,
      temp.emit_token at1 rt1 skb e1 true
        = .ok ({ temp with consumed := true }, res) ∧
      res.refresh = some refresh ∧
      refresh.scope = none ∧
      ∃ res2 : EmitResult,
        refresh.emit_token at2 rt2 skb2 e2 false
          = .ok (refresh, res2) ∧
        res2.access.session.scope = temp.grant.scope := by
  refine ⟨{ access := temp.grant.new_access_token at1 skb e1
                        temp.deploy_id temp.scope,
            refresh := some { token := rt1,
                              grant := .ofGrant temp.grant,
                              deploy_id := temp.deploy_id,
                              scope := none,
                              revoked := false } },
          { token := rt1, grant := .ofGrant temp.grant,
            deploy_id := temp.deploy_id, scope := none,
            revoked := false }, ?_, rfl, rfl,
          { access := temp.grant.new_access_token at2 skb2 e2
                        temp.deploy_id none,
            refresh := none }, ?_, ?_⟩
  · simp [TemporaryGrant.emit_token, h]
  · simp [RefreshToken.emit_token]
  · simp [AuthorizationGrant.new_access_token, scopeTruthy]

/-- Witness for `c10_refresh_token_drops_code_scope` at a concrete code
whose scope `["read"]` is a proper subset of the grant's
`["read", "write"]`: the session minted via the refresh token
nevertheless carries `["read", "write"]`. -/
theorem c10_refresh_token_drops_code_scope_witness :
    ∃ res : EmitResult, ∃ refresh : RefreshToken,
      ({ consumedTempEx with consumed := false } :
          TemporaryGrant).emit_token "at" "rt" 2 3600 true
        = .ok (consumedTempEx, res) ∧
      res.refresh = some refresh ∧
      refresh.scope = none ∧
      ∃ res2 : EmitResult,
        refresh.emit_token "at2" "rt2" 2 3600 false
          = .ok (refresh, res2) ∧
        res2.access.session.scope = ["read", "write"] := by
  exact c10_refresh_token_drops_code_scope
    { consumedTempEx with consumed := false } rfl "at" "rt" "at2" "rt2"
    2 3600 2 3600

/-- `TemporaryGrantManager.authorized` (models.py lines 105-113): the
queryset of stored codes matching the redemption lookup, as a filter
over the list of stored records.  `now` is `utcnow()`;
`expires__gt=utcnow()` is the strict comparison `now < expires`. -/
def TemporaryGrantManager.authorized (db : List TemporaryGrant)
    (now : Nat) (auth_code redirect_uri client_id : String)
    (deploy_id : String := "") : List TemporaryGrant :=
  db.filter fun r =>
    !r.consumed && decide (now < r.expires) &&
    r.auth_code == auth_code && r.redirect_uri == redirect_uri &&
    r.grant.client_id == client_id && r.deploy_id == deploy_id

/-- C2: a stored code is returned by the redemption lookup iff it is
unconsumed, its expiry is strictly in the future, and auth_code,
redirect_uri, owning grant's client_id and deploy_id all equal the
lookup arguments; in particular an expired record is never returned. -/
theorem c2_authorized_lookup (db : List TemporaryGrant)
    (r : TemporaryGrant) (now : Nat)
    (auth_code redirect_uri client_id deploy_id : String) :
    r ∈ TemporaryGrantManager.authorized db now auth_code redirect_uri
        client_id deploy_id ↔
      r ∈ db ∧ r.consumed = false ∧ now < r.expires ∧
      r.auth_code = auth_code ∧ r.redirect_uri = redirect_uri ∧
      r.grant.client_id = client_id ∧ r.deploy_id = deploy_id := by
  simp [TemporaryGrantManager.authorized, List.mem_filter, and_assoc]

/-- `AuthorizationGrant.objects.get_or_create(client_id=..., user=...,
defaults=...)` as called from `AuthorizationRequest.grant` (models.py
lines 264-269).  Modelled from Django's documented semantics over the
list of stored grants: return the first record matching the lookup pair,
or insert a fresh record built from the lookup fields plus the defaults.
`fresh_pk` injects the database-assigned primary key of a new row.  The
`unique_together ('client_id', 'user')` constraint (lines 73-74) is the
`pairCount · ≤ 1` invariant of the theorems below. -/
def AuthorizationGrant.get_or_create (db : List AuthorizationGrant)
    (fresh_pk : Nat) (client_id : String) (user : Nat)
    (auth_backend : String) (scope : List String) :
    AuthorizationGrant × Bool × List AuthorizationGrant :=
  match db.find? (fun g => g.client_id == client_id && g.user == user)
    with
  | some g => (g, false, db)
  | none =>
      let g : AuthorizationGrant :=
        { pk := fresh_pk, client_id := client_id, user := user,
          auth_backend := auth_backend, scope := scope,
          revoked := false }
      (g, true, db ++ [g])

/-- The request object of `AuthorizationRequest.__init__` (models.py
lines 201-212), restricted to the protocol fields the claims exercise
(the `validate` machinery touches no stored state). -/
structure AuthorizationRequest where
  response_type : String
  client_id : String
  redirect_uri : String
  scope : List String
  state : String
deriving DecidableEq, Repr

/-- `AuthorizationRequest.grant` (models.py lines 263-273): delegates to
`get_or_create` with the request's client_id and the authenticated user,
with the session's auth backend and the requested scope as creation
defaults; on a pre-existing grant it calls `update_scope`, whose body is
`pass` (lines 275-277), so the store is returned unchanged in that
case. -/
def AuthorizationRequest.grant (req : AuthorizationRequest)
    (db : List AuthorizationGrant) (fresh_pk : Nat) (user : Nat)
    (auth_backend : String) :
    AuthorizationGrant × List AuthorizationGrant :=
  let (g, _created, db2) := AuthorizationGrant.get_or_create db fresh_pk
    req.client_id user auth_backend req.scope
  (g, db2)

/-- Number of stored grants for a (client_id, user) pair. -/
def pairCount (db : List AuthorizationGrant) (client_id : String)
    (user : Nat) : Nat :=
  db.countP (fun g => g.client_id == client_id && g.user == user)

/-- C7: grant creation is idempotent per (client_id, user) pair — a
second `grant` call with the same pair returns the very grant the first
call returned, leaves the store untouched, and, from any store
satisfying the `unique_together` bound of at most one grant per pair,
the pair's grant-count never exceeds one. -/
theorem c7_one_grant_per_pair (req : AuthorizationRequest)
    (db : List AuthorizationGrant) (pk1 pk2 user : Nat)
    (auth_backend : String)
    (h : pairCount db req.client_id user ≤ 1) :
    (req.grant (req.grant db pk1 user auth_backend).2 pk2 user
        auth_backend).1
      = (req.grant db pk1 user auth_backend).1 ∧
    (req.grant (req.grant db pk1 user auth_backend).2 pk2 user
        auth_backend).2
      = (req.grant db pk1 user auth_backend).2 ∧
    pairCount (req.grant db pk1 user auth_backend).2 req.client_id user
      ≤ 1 := by
  unfold AuthorizationRequest.grant AuthorizationGrant.get_or_create
  rcases hf : db.find?
      (fun g => g.client_id == req.client_id && g.user == user)
    with _ | g
  · have hcnt : pairCount db req.client_id user = 0 := by
      unfold pairCount
      rw [List.countP_eq_zero]
      intro a ha
      exact List.find?_eq_none.mp hf a ha
    simp only [hf]
    rw [List.find?_append, hf]
    simp only [Option.none_orElse, List.find?_cons, beq_self_eq_true,
      Bool.and_self, List.find?_nil]
    constructor
    · rfl
    constructor
    · rfl
    · unfold pairCount at hcnt ⊢
      rw [List.countP_append, hcnt]
      simp
  · simp only [hf]
    exact ⟨trivial, trivial, h⟩

/-- The concrete request of the spec's code-grant scenario. -/
def reqEx : AuthorizationRequest :=
  { response_type := "code", client_id := "c1",
    redirect_uri := "https://app/cb?x=1", scope := ["read"],
    state := "s1" }

/-- Witness for `c7_one_grant_per_pair`: from the empty store, two grant
calls for the same pair yield the same single grant. -/
theorem c7_one_grant_per_pair_witness :
    (reqEx.grant (reqEx.grant [] 1 7 "b").2 2 7 "b").1
      = (reqEx.grant [] 1 7 "b").1 ∧
    (reqEx.grant (reqEx.grant [] 1 7 "b").2 2 7 "b").2
      = (reqEx.grant [] 1 7 "b").2 ∧
    pairCount (reqEx.grant [] 1 7 "b").2 reqEx.client_id 7 ≤ 1 := by
  exact c7_one_grant_per_pair reqEx [] 1 2 7 "b" (by decide)

/-- The character class `[!#-[\]-~]` of `scope_re` (models.py
line 327): `!` (0x21), the range `#`-`[` (0x23-0x5B), and the range
`]`-`~` (0x5D-0x7E).  Python 2 `str`s are byte strings, so the class is
a byte-value predicate. -/
def scopeChar (c : Char) : Bool :=
  c.toNat == 0x21 ||
  (decide (0x23 ≤ c.toNat) && decide (c.toNat ≤ 0x5B)) ||
  (decide (0x5D ≤ c.toNat) && decide (c.toNat ≤ 0x7E))

/-- The characters `^[!#-[\]-~]+$` must cover.  Python's `$` (without
`re.MULTILINE`) matches at the end of the string or just before one
newline at the end, so a single trailing newline is excused from the
class; the class itself never matches a newline, so stripping one
trailing newline and requiring full coverage of the rest is exactly the
regex's acceptance condition. -/
def scopeTokenCore (s : String) : List Char :=
  if s.data.getLast? = some '\n' then s.data.dropLast else s.data

/-- `scope_re.match(s) is not None` (models.py lines 327-330): at least
one character, all of them in the class, up to the `$` newline rule. -/
def scopeReMatches (s : String) : Bool :=
  !(scopeTokenCore s).isEmpty && (scopeTokenCore s).all scopeChar

/-- `parse_scope` (models.py lines 329-332). -/
def parse_scope (scope : List String) : Except String (List String) :=
  if scope.any (fun s => !scopeReMatches s) then
    .error "invalid scope"
  else
    .ok scope

/-- Refinement definition following the claim's words, not the source:
a token is valid when non-empty and every character is a visible,
non-whitespace ASCII printable (0x21-0x7E) outside the claimed excluded
set of backslash, `[`, and `]`. -/
def claimScopeTokenOk (s : String) : Bool :=
  !s.isEmpty && s.data.all fun c =>
    decide (0x21 ≤ c.toNat) && decide (c.toNat ≤ 0x7E) &&
    !(c == '\\') && !(c == '[') && !(c == ']')

/-- C8 counterexample: the token `"["` fails the claim's charset (it
contains `[`), yet `parse_scope` accepts it unchanged — the regex range
`#`-`[` includes the bracket characters; what the class actually
excludes from visible ASCII is `"` (0x22) and backslash (0x5C). -/
theorem c8_counterexample :
    parse_scope ["["] = .ok ["["] ∧ claimScopeTokenOk "[" = false := by
  exact ⟨rfl, rfl⟩

/-- A token accepted by `parse_scope`, as the amended claim words it:
after stripping at most one trailing newline (tolerated by the `$`
anchor) the token is non-empty and every character is a visible ASCII
printable (0x21-0x7E) other than the double quote (0x22) and the
backslash (0x5C). -/
def AmendedScopeToken (s : String) : Prop :=
  scopeTokenCore s ≠ [] ∧ ∀ c ∈ scopeTokenCore s,
    0x21 ≤ c.toNat ∧ c.toNat ≤ 0x7E ∧ c.toNat ≠ 0x22 ∧ c.toNat ≠ 0x5C

instance : DecidablePred AmendedScopeToken := fun s => by
  unfold AmendedScopeToken
  infer_instance

/-- C8 amended: `parse_scope` returns the list unchanged iff every
token satisfies `AmendedScopeToken` (visible ASCII printable except
`"` and backslash — bracket characters are allowed — with one trailing
newline tolerated); otherwise it raises `ValidationError('invalid
scope')`. -/
theorem c8_amended_scope_charset (scope : List String) :
    (parse_scope scope = .ok scope ↔
      ∀ s ∈ scope, AmendedScopeToken s) ∧
    (parse_scope scope ≠ .ok scope →
      parse_scope scope = .error "invalid scope") := by
  have hTok : ∀ s, scopeReMatches s = true ↔ AmendedScopeToken s := by
    intro s
    unfold scopeReMatches AmendedScopeToken
    rw [Bool.and_eq_true, List.all_eq_true]
    constructor
    · rintro ⟨h1, h2⟩
      refine ⟨by simpa [List.isEmpty_iff] using h1, fun c hc => ?_⟩
      have hca := h2 c hc
      simp only [scopeChar, Bool.or_eq_true, Bool.and_eq_true,
        decide_eq_true_eq, beq_iff_eq] at hca
      omega
    · rintro ⟨h1, h2⟩
      refine ⟨by simpa [List.isEmpty_iff] using h1, fun c hc => ?_⟩
      have hca := h2 c hc
      simp only [scopeChar, Bool.or_eq_true, Bool.and_eq_true,
        decide_eq_true_eq, beq_iff_eq]
      omega
  constructor
  · cases hany : scope.any (fun s => !scopeReMatches s) with
    | false =>
        simp only [parse_scope, hany, Bool.false_eq_true, if_false,
          true_iff]
        intro s hs
        have := List.any_eq_false.mp hany s hs
        exact (hTok s).mp (by simpa using this)
    | true =>
        simp only [parse_scope, hany, if_true]
        constructor
        · intro hcontra
          exact absurd hcontra (by simp)
        · intro hall
          obtain ⟨s, hs, hps⟩ := List.any_eq_true.mp hany
          have := (hTok s).mpr (hall s hs)
          simp [this] at hps
  · intro hne
    cases hany : scope.any (fun s => !scopeReMatches s) with
    | false => exact absurd (by simp [parse_scope, hany]) hne
    | true => simp [parse_scope, hany]

/-- Witness for `c8_amended_scope_charset`: tokens with brackets,
punctuation and a trailing newline are accepted. -/
theorem c8_amended_scope_charset_witness :
    parse_scope ["read", "a[0]:x", "w\n"]
      = .ok ["read", "a[0]:x", "w\n"] := by
  exact (c8_amended_scope_charset ["read", "a[0]:x", "w\n"]).1.mpr
    (by decide)

/-! ## The `code_redirect` URL machinery (claim C9)

`AuthorizationRequest.code_redirect` (models.py lines 279-299) is built
from the Python 2 standard library's `urlparse`, `parse_qs`,
`urlencode` and `urlunparse`.  Python 2 `str`s are byte strings; the
embedding works on `Char` lists whose code points play the role of
bytes (the roundtrip theorems assume code points below 256, which is a
byte-string wellformedness hypothesis, discharged concretely in the
witnesses).  Python dicts iterate in unspecified order; the embedding
fixes insertion order, which determines a representative parameter
order without affecting which parameters are present. -/

/-- `urllib.always_safe` restricted to its use in `quote_plus`:
letters, digits, underscore, dot, dash survive quoting unchanged. -/
def alwaysSafe (c : Char) : Bool :=
  c.isAlpha || c.isDigit || c == '_' || c == '.' || c == '-'

/-- Uppercase hexadecimal digit of `n < 16`, as `'%%%02X' %% i`
produces. -/
def hexDigitChar (n : Nat) : Char :=
  if n < 10 then Char.ofNat (48 + n) else Char.ofNat (55 + n)

/-- A character `int(_, 16)` accepts: `0-9`, `A-F`, `a-f`. -/
def isHexDigit (c : Char) : Bool :=
  (decide (48 ≤ c.toNat) && decide (c.toNat ≤ 57)) ||
  (decide (65 ≤ c.toNat) && decide (c.toNat ≤ 70)) ||
  (decide (97 ≤ c.toNat) && decide (c.toNat ≤ 102))

/-- Value of a hexadecimal digit character. -/
def hexVal (c : Char) : Nat :=
  if c.toNat ≤ 57 then c.toNat - 48
  else if c.toNat ≤ 70 then c.toNat - 55
  else c.toNat - 87

/-- `urllib.quote_plus` on one byte: a space becomes `+`, a safe
character stays, anything else is percent-encoded with two uppercase
hex digits. -/
def quotePlusChar (c : Char) : List Char :=
  if c = ' ' then ['+']
  else if alwaysSafe c then [c]
  else ['%', hexDigitChar (c.toNat / 16), hexDigitChar (c.toNat % 16)]

/-- `urllib.quote_plus` over a byte list. -/
def quotePlusChars : List Char → List Char
  | [] => []
  | c :: cs => quotePlusChar c ++ quotePlusChars cs

/-- The `.replace('+', ' ')` step of `unquote_plus`. -/
def plusToSpace (cs : List Char) : List Char :=
  cs.map fun c => if c = '+' then ' ' else c

/-- `urllib.unquote`: `%` followed by two hex digits decodes to that
byte; any other `%` stays literal. -/
def unquoteChars : List Char → List Char
  | [] => []
  | c :: a :: b :: rest =>
      if c == '%' && isHexDigit a && isHexDigit b then
        Char.ofNat (16 * hexVal a + hexVal b) :: unquoteChars rest
      else
        c :: unquoteChars (a :: b :: rest)
  | c :: cs => c :: unquoteChars cs

/-- `unquote(s.replace('+', ' '))`, i.e. `urllib.unquote_plus`. -/
def unquotePlusChars (cs : List Char) : List Char :=
  unquoteChars (plusToSpace cs)

/-- Python `str.split(sep)` (full split; `"".split(sep) = ['']`). -/
def splitSep (sep : Char) : List Char → List (List Char)
  | [] => [[]]
  | c :: cs =>
      match splitSep sep cs with
      | [] => [[c]]
      | h :: t => if c = sep then [] :: h :: t else (c :: h) :: t

/-- Python `str.split(sep, 1)`: the part before the first `sep` and,
when `sep` occurs, the remainder after it. -/
def splitFirst (sep : Char) : List Char → List Char × Option (List Char)
  | [] => ([], none)
  | c :: cs =>
      if c = sep then ([], some cs)
      else
        let (pre, post) := splitFirst sep cs
        (c :: pre, post)

/-- One field of `parse_qsl`'s loop body (default
`keep_blank_values=False, strict_parsing=False`): skip an empty field,
a field without `=`, and a field with empty raw value; otherwise
unquote-plus the name and the value. -/
def qslStep (nv : List Char) : Option (String × String) :=
  if nv = [] then none
  else
    match splitFirst '=' nv with
    | (_, none) => none
    | (nm, some v) =>
        if v = [] then none
        else some (⟨unquotePlusChars nm⟩, ⟨unquotePlusChars v⟩)

/-- `urlparse.parse_qsl(qs)` with the default arguments: split fields
on `&` and `;`, then process each field with `qslStep`. -/
def parseQsl (qs : String) : List (String × String) :=
  ((splitSep '&' qs.data).flatMap (splitSep ';')).filterMap qslStep

/-- A Python dict value as `code_redirect` uses them: `parse_qs` stores
lists of strings, the `query['code'] = ...` / `query['state'] = ...`
assignments store plain strings. -/
inductive QVal where
  | str (v : String)
  | lst (vs : List String)
deriving DecidableEq, Repr

/-- A Python dict in insertion order. -/
abbrev QDict := List (String × QVal)

/-- `parse_qs`'s accumulation step: append the value to the name's
list, or add a new singleton entry.  (In `parse_qs` all stored values
are lists; the `str` branch is unreachable there and keeps the entry
unchanged.) -/
def qdictAppend : QDict → String → String → QDict
  | [], nm, v => [(nm, .lst [v])]
  | (k, .lst vs) :: rest, nm, v =>
      if k = nm then (k, .lst (vs ++ [v])) :: rest
      else (k, .lst vs) :: qdictAppend rest nm v
  | (k, .str s) :: rest, nm, v =>
      if k = nm then (k, .str s) :: rest
      else (k, .str s) :: qdictAppend rest nm v

/-- `urlparse.parse_qs(qs)` (default arguments), insertion-ordered. -/
def parseQs (qs : String) : QDict :=
  (parseQsl qs).foldl (fun d p => qdictAppend d p.1 p.2) []

/-- Python dict `d[k] = v`: replace in place or append. -/
def qdictSet : QDict → String → QVal → QDict
  | [], nm, v => [(nm, v)]
  | (k, w) :: rest, nm, v =>
      if k = nm then (nm, v) :: rest
      else (k, w) :: qdictSet rest nm v

/-- Dict lookup. -/
def qdictLookup : QDict → String → Option QVal
  | [], _ => none
  | (k, v) :: rest, nm => if k = nm then some v else qdictLookup rest nm

/-- The value strings `urlencode(..., doseq=True)` emits for one dict
value: a plain string yields itself, a list yields its elements. -/
def valStrings : QVal → List String
  | .str v => [v]
  | .lst vs => vs

/-- One `k=v` field of `urlencode` output. -/
def encodeField (k v : String) : List Char :=
  quotePlusChars k.data ++ '=' :: quotePlusChars v.data

/-- All fields of `urlencode(d, doseq=True)` in dict order. -/
def encodePairs (d : QDict) : List (List Char) :=
  d.flatMap fun p => (valStrings p.2).map fun v => encodeField p.1 v

/-- `'&'.join(fields)`. -/
def joinAmp : List (List Char) → List Char
  | [] => []
  | [f] => f
  | f :: fs => f ++ '&' :: joinAmp fs

/-- `urllib.urlencode(d, doseq=True)` for a dict of strings and string
lists. -/
def urlencodeDoseq (d : QDict) : String :=
  ⟨joinAmp (encodePairs d)⟩

/-- The six components `urlparse` produces. -/
structure UrlParts where
  scheme : String
  netloc : String
  path : String
  params : String
  query : String
  fragment : String
deriving DecidableEq, Repr

/-- `urlparse.scheme_chars`. -/
def schemeChar (c : Char) : Bool :=
  c.isAlpha || c.isDigit || c == '+' || c == '-' || c == '.'

/-- `urlparse.uses_query` (CPython 2.7 table): schemes whose `?` part
is split off as a query. -/
def uses_query : List String :=
  ["http", "wais", "imap", "https", "shttp", "mms", "gopher", "rtsp",
   "rtspu", "sip", "sips", "snews", "tel", "fax", "modem", ""]

/-- `urlparse.uses_fragment` (CPython 2.7 table). -/
def uses_fragment : List String :=
  ["ftp", "hdl", "http", "gopher", "news", "nntp", "wais", "https",
   "shttp", "snews", "file", "prospero", ""]

/-- `urlparse.uses_params` (CPython 2.7 table). -/
def uses_params : List String :=
  ["ftp", "hdl", "prospero", "http", "imap", "https", "shttp", "rtsp",
   "rtspu", "sip", "sips", "mms", "sftp", ""]

/-- `urlparse._splitnetloc`: the network location runs to the first
`/`, `?` or `#`. -/
def splitNetloc (url : List Char) : List Char × List Char :=
  (url.takeWhile fun c => !(c == '/' || c == '?' || c == '#'),
   url.dropWhile fun c => !(c == '/' || c == '?' || c == '#'))

/-- `urlparse.urlsplit(url)` (CPython 2.7, `allow_fragments=True`):
scheme detection (a leading run of scheme characters before `:`,
rejected when the remainder is a non-empty digit string, i.e. a port),
then `//`-netloc, then fragment and query splits gated on the scheme
tables.  The special-cased fast path for the literal scheme `http` is
behaviourally folded into the generic path (it differs only in
skipping the port-number check for `http:`+digits inputs). -/
def urlsplitModel (url : String) : UrlParts :=
  let cs := url.data
  let (scheme, rest) :=
    match splitFirst ':' cs with
    | (pre, some post) =>
        if pre ≠ [] ∧ pre.all schemeChar ∧
            (post = [] ∨ post.any fun c => !c.isDigit) then
          (String.mk (pre.map Char.toLower), post)
        else
          ("", cs)
    | (_, none) => ("", cs)
  let (netloc, rest2) :=
    if rest.take 2 = ['/', '/'] then splitNetloc (rest.drop 2)
    else ([], rest)
  let (rest3, fragment) :=
    if uses_fragment.contains scheme then
      match splitFirst '#' rest2 with
      | (pre, some post) => (pre, post)
      | (_, none) => (rest2, ([] : List Char))
    else (rest2, [])
  let (path, query) :=
    if uses_query.contains scheme then
      match splitFirst '?' rest3 with
      | (pre, some post) => (pre, post)
      | (_, none) => (rest3, ([] : List Char))
    else (rest3, [])
  { scheme := scheme, netloc := String.mk netloc,
    path := String.mk path, params := "",
    query := String.mk query, fragment := String.mk fragment }

/-- `urlparse._splitparams`: parameters are split at the first `;` of
the last path segment (after the last `/`, or of the whole path when it
has no `/`); no `;` there means no parameters. -/
def splitParamsModel (path : List Char) : List Char × List Char :=
  if path.contains '/' then
    let lastSeg := (path.reverse.takeWhile fun c => c ≠ '/').reverse
    let pre := path.take (path.length - lastSeg.length)
    match splitFirst ';' lastSeg with
    | (p, some ps) => (pre ++ p, ps)
    | (_, none) => (path, [])
  else
    match splitFirst ';' path with
    | (p, some ps) => (p, ps)
    | (_, none) => (path, [])

/-- `urlparse.urlparse(url)`: `urlsplit` plus the params split, gated
on `uses_params`. -/
def urlparseModel (url : String) : UrlParts :=
  let s := urlsplitModel url
  if uses_params.contains s.scheme && s.path.data.contains ';' then
    let (p, ps) := splitParamsModel s.path.data
    { s with path := String.mk p, params := String.mk ps }
  else
    s

/-- `urlparse.urlunparse` / `urlunsplit` (CPython 2.7): reattach
params with `;`, netloc behind `//` (prefixing a bare path with `/`),
scheme with `:`, and non-empty query and fragment behind `?` / `#`. -/
def urlunparseModel (p : UrlParts) : String :=
  let url0 := if p.params ≠ "" then p.path.data ++ ';' :: p.params.data
              else p.path.data
  let url1 :=
    if p.netloc ≠ "" ∨ url0.take 2 = ['/', '/'] then
      '/' :: '/' :: p.netloc.data ++
        (if url0 ≠ [] ∧ url0.head? ≠ some '/' then '/' :: url0 else url0)
    else url0
  let url2 := if p.scheme ≠ "" then p.scheme.data ++ ':' :: url1 else url1
  let url3 := if p.query ≠ "" then url2 ++ '?' :: p.query.data else url2
  let url4 := if p.fragment ≠ "" then url3 ++ '#' :: p.fragment.data
              else url3
  String.mk url4

/-- The query-merging step of `code_redirect` (models.py lines
286-290): parse the existing query, overwrite `code` and `state`, and
re-encode. -/
def mergedQuery (query : String) (auth_code state : String) : String :=
  let q := parseQs query
  let q2 := qdictSet q "code" (.str auth_code)
  let q3 := qdictSet q2 "state" (.str state)
  urlencodeDoseq q3

/-- `AuthorizationRequest.code_redirect` (models.py lines 279-299).
Lines 280-284 build and persist the `TemporaryGrant` whose random
`auth_code` is injected here as `temp_auth_code` (its `state` and
`redirect_uri` fields are copied from the request and do not influence
the returned URI).  Lines 286-299 rebuild the redirect URI with the
merged query and `fragment=None`. -/
def AuthorizationRequest.code_redirect (req : AuthorizationRequest)
    (temp_auth_code : String) : String :=
  let o := urlparseModel req.redirect_uri
  urlunparseModel
    { scheme := o.scheme, netloc := o.netloc, path := o.path,
      params := o.params,
      query := mergedQuery o.query temp_auth_code req.state,
      fragment := "" }

/-! ### Quoting roundtrip lemmas -/

/-- `(Char.ofNat n).toNat = n` for byte values. -/
theorem char_toNat_ofNat (n : Nat) (h : n < 256) :
    (Char.ofNat n).toNat = n := by
  have hv : n.isValidChar := Or.inl (by omega)
  simp [Char.ofNat, hv, Char.ofNatAux, Char.toNat, UInt32.toNat,
    BitVec.toNat_ofNatLt]

/-- The hex digits emitted by percent-encoding are safe characters,
are accepted by `int(_, 16)`, and decode to their value. -/
theorem hexDigitChar_spec : ∀ n < 16,
    alwaysSafe (hexDigitChar n) = true ∧
    isHexDigit (hexDigitChar n) = true ∧
    hexVal (hexDigitChar n) = n := by decide

/-- Hex digits decode below 16. -/
theorem hexVal_lt_of_isHexDigit (c : Char) (h : isHexDigit c = true) :
    hexVal c < 16 := by
  simp only [isHexDigit, Bool.or_eq_true, Bool.and_eq_true,
    decide_eq_true_eq] at h
  unfold hexVal
  rcases h with (h | h) | h <;>
    by_cases h57 : c.toNat ≤ 57 <;>
    by_cases h70 : c.toNat ≤ 70 <;>
    simp only [h57, h70, if_true, if_false] <;> omega

/-- A safe character differs from any unsafe character. -/
theorem alwaysSafe_ne (c : Char) (h : alwaysSafe c = true) (d : Char)
    (hd : alwaysSafe d = false) : c ≠ d := by
  intro hcd
  rw [hcd, hd] at h
  cases h

/-- Every character of a quoted byte is `+`, `%`, or safe. -/
theorem mem_quotePlusChar (c x : Char) (hc : c.toNat < 256)
    (h : x ∈ quotePlusChar c) :
    x = '+' ∨ x = '%' ∨ alwaysSafe x = true := by
  unfold quotePlusChar at h
  split at h
  · simp only [List.mem_singleton] at h
    exact Or.inl h
  · next hsafe =>
      split at h
      · next hsf =>
          simp only [List.mem_singleton] at h
          exact Or.inr (Or.inr (h ▸ hsf))
      · simp only [List.mem_cons, List.mem_singleton,
          List.not_mem_nil, or_false] at h
        rcases h with rfl | rfl | rfl
        · exact Or.inr (Or.inl rfl)
        · exact Or.inr <| Or.inr
            (hexDigitChar_spec (c.toNat / 16) (by omega)).1
        · exact Or.inr <| Or.inr
            (hexDigitChar_spec (c.toNat % 16) (by omega)).1

/-- Every character of a quoted byte string is `+`, `%`, or safe. -/
theorem mem_quotePlusChars (cs : List Char)
    (hb : ∀ c ∈ cs, c.toNat < 256) (x : Char)
    (h : x ∈ quotePlusChars cs) :
    x = '+' ∨ x = '%' ∨ alwaysSafe x = true := by
  induction cs with
  | nil => cases h
  | cons c cs ih =>
      rw [quotePlusChars, List.mem_append] at h
      rcases h with h | h
      · exact mem_quotePlusChar c x (hb c (List.mem_cons_self c cs)) h
      · exact ih (fun d hd => hb d (List.mem_cons_of_mem c hd)) h

/-- Quoting one byte never yields the empty string. -/
theorem quotePlusChar_ne_nil (c : Char) : quotePlusChar c ≠ [] := by
  unfold quotePlusChar
  split
  · simp
  · split <;> simp

/-- Quoting is empty exactly on the empty input. -/
theorem quotePlusChars_eq_nil_iff (cs : List Char) :
    quotePlusChars cs = [] ↔ cs = [] := by
  cases cs with
  | nil => simp [quotePlusChars]
  | cons c cs =>
      simp [quotePlusChars, List.append_eq_nil, quotePlusChar_ne_nil c]

/-- Unquoting a string not beginning with `%` keeps its head. -/
theorem unquoteChars_cons_ne (c : Char) (cs : List Char)
    (h : c ≠ '%') :
    unquoteChars (c :: cs) = c :: unquoteChars cs := by
  rcases cs with _ | ⟨a, cs⟩
  · rfl
  rcases cs with _ | ⟨b, rest⟩
  · rfl
  · simp [unquoteChars, h]

/-- Unquoting decodes a `%`-escape of two hex digits. -/
theorem unquoteChars_percent (a b : Char) (rest : List Char)
    (ha : isHexDigit a = true) (hb : isHexDigit b = true) :
    unquoteChars ('%' :: a :: b :: rest)
      = Char.ofNat (16 * hexVal a + hexVal b) :: unquoteChars rest := by
  simp [unquoteChars, ha, hb]

/-- `unquote_plus` inverts `quote_plus` on byte strings. -/
theorem unquotePlus_quotePlus (cs : List Char)
    (hb : ∀ c ∈ cs, c.toNat < 256) :
    unquotePlusChars (quotePlusChars cs) = cs := by
  induction cs with
  | nil => rfl
  | cons c cs ih =>
      have hc : c.toNat < 256 := hb c (List.mem_cons_self c cs)
      have ih2 := ih fun d hd => hb d (List.mem_cons_of_mem c hd)
      unfold unquotePlusChars at ih2 ⊢
      have hexp : quotePlusChars (c :: cs)
          = quotePlusChar c ++ quotePlusChars cs := rfl
      rw [hexp]
      unfold plusToSpace at ih2 ⊢
      rw [List.map_append]
      by_cases hsp : c = ' '
      · subst hsp
        show unquoteChars (' ' :: _) = _
        rw [unquoteChars_cons_ne _ _ (by decide)]
        exact congrArg (' ' :: ·) ih2
      · rw [quotePlusChar, if_neg hsp]
        by_cases hsf : alwaysSafe c = true
        · rw [if_pos hsf]
          have hplus : c ≠ '+' := alwaysSafe_ne c hsf '+' (by decide)
          have hpct : c ≠ '%' := alwaysSafe_ne c hsf '%' (by decide)
          show unquoteChars ((if c = '+' then ' ' else c) :: _) = _
          rw [if_neg hplus, unquoteChars_cons_ne _ _ hpct]
          exact congrArg (c :: ·) ih2
        · rw [if_neg hsf]
          have hd1 := hexDigitChar_spec (c.toNat / 16) (by omega)
          have hd2 := hexDigitChar_spec (c.toNat % 16) (by omega)
          have hp1 : hexDigitChar (c.toNat / 16) ≠ '+' :=
            alwaysSafe_ne _ hd1.1 '+' (by decide)
          have hp2 : hexDigitChar (c.toNat % 16) ≠ '+' :=
            alwaysSafe_ne _ hd2.1 '+' (by decide)
          show unquoteChars ((if ('%' : Char) = '+' then ' ' else '%') ::
            (if hexDigitChar (c.toNat / 16) = '+' then ' '
              else hexDigitChar (c.toNat / 16)) ::
            (if hexDigitChar (c.toNat % 16) = '+' then ' '
              else hexDigitChar (c.toNat % 16)) :: _) = _
          rw [if_neg (by decide), if_neg hp1, if_neg hp2,
            unquoteChars_percent _ _ _ hd1.2.1 hd2.2.1, hd1.2.2, hd2.2.2,
            Nat.div_add_mod, Char.ofNat_toNat]
          exact congrArg (c :: ·) ih2

/-- Unquoting never maps a non-empty string to the empty one. -/
theorem unquoteChars_ne_nil (cs : List Char) (h : cs ≠ []) :
    unquoteChars cs ≠ [] := by
  rcases cs with _ | ⟨c, _ | ⟨a, _ | ⟨b, rest⟩⟩⟩
  · cases h rfl
  · simp [unquoteChars]
  · simp [unquoteChars]
  · rw [unquoteChars]
    split <;> simp

/-- Unquoting a byte string yields a byte string. -/
theorem unquoteChars_bytes (cs : List Char)
    (hb : ∀ c ∈ cs, c.toNat < 256) :
    ∀ x ∈ unquoteChars cs, x.toNat < 256 := by
  induction cs using unquoteChars.induct with
  | case1 =>
      intro x hx
      cases hx
  | case2 c a b rest hcond ih =>
      intro x hx
      rw [unquoteChars, if_pos hcond] at hx
      rcases List.mem_cons.mp hx with rfl | hx
      · simp only [Bool.and_eq_true, beq_iff_eq] at hcond
        have hbv := hexVal_lt_of_isHexDigit b hcond.2
        have hav := hexVal_lt_of_isHexDigit a hcond.1.2
        rw [char_toNat_ofNat _ (by omega)]
        omega
      · exact ih (fun d hd => hb d (by simp [hd])) x hx
  | case3 c a b rest hcond ih =>
      intro x hx
      rw [unquoteChars, if_neg hcond] at hx
      rcases List.mem_cons.mp hx with rfl | hx
      · exact hb x (List.mem_cons_self _ _)
      · exact ih (fun d hd => hb d (List.mem_cons_of_mem c hd)) x hx
  | case4 c cs hshape ih =>
      intro x hx
      have hexp : unquoteChars (c :: cs) = c :: unquoteChars cs := by
        rcases cs with _ | ⟨a, _ | ⟨b, rest⟩⟩
        · rfl
        · rfl
        · exact absurd rfl (hshape a b rest)
      rw [hexp] at hx
      rcases List.mem_cons.mp hx with rfl | hx
      · exact hb x (List.mem_cons_self _ _)
      · exact ih (fun d hd => hb d (List.mem_cons_of_mem c hd)) x hx

/-- `plusToSpace` keeps non-emptiness. -/
theorem plusToSpace_ne_nil (cs : List Char) (h : cs ≠ []) :
    plusToSpace cs ≠ [] := by
  simp [plusToSpace, h]

/-- `plusToSpace` keeps byte strings byte strings. -/
theorem plusToSpace_bytes (cs : List Char)
    (hb : ∀ c ∈ cs, c.toNat < 256) :
    ∀ x ∈ plusToSpace cs, x.toNat < 256 := by
  intro x hx
  rw [plusToSpace, List.mem_map] at hx
  obtain ⟨c, hc, rfl⟩ := hx
  split
  · decide
  · exact hb c hc

/-- `unquote_plus` of a non-empty string is non-empty. -/
theorem unquotePlusChars_ne_nil (cs : List Char) (h : cs ≠ []) :
    unquotePlusChars cs ≠ [] :=
  unquoteChars_ne_nil _ (plusToSpace_ne_nil cs h)

/-- `unquote_plus` of a byte string is a byte string. -/
theorem unquotePlusChars_bytes (cs : List Char)
    (hb : ∀ c ∈ cs, c.toNat < 256) :
    ∀ x ∈ unquotePlusChars cs, x.toNat < 256 :=
  unquoteChars_bytes _ (plusToSpace_bytes cs hb)

/-! ### Splitting lemmas -/

/-- `splitSep` never produces the empty list of pieces. -/
theorem splitSep_ne_nil (sep : Char) (cs : List Char) :
    splitSep sep cs ≠ [] := by
  cases cs with
  | nil => simp [splitSep]
  | cons c cs =>
      cases h : splitSep sep cs with
      | nil => simp [splitSep, h]
      | cons hd tl =>
          simp only [splitSep, h]
          split <;> simp

/-- A piece of a split is made of characters of the input. -/
theorem mem_of_mem_splitSep (sep : Char) (cs : List Char)
    (p : List Char) (hp : p ∈ splitSep sep cs) (x : Char) (hx : x ∈ p) :
    x ∈ cs := by
  induction cs generalizing p with
  | nil =>
      simp only [splitSep, List.mem_singleton] at hp
      subst hp
      cases hx
  | cons c cs ih =>
      cases hs : splitSep sep cs with
      | nil => exact absurd hs (splitSep_ne_nil sep cs)
      | cons hd tl =>
          simp only [splitSep, hs] at hp
          split at hp
          · rcases List.mem_cons.mp hp with rfl | hp
            · cases hx
            · exact List.mem_cons_of_mem c
                (ih p (hs ▸ hp) hx)
          · rcases List.mem_cons.mp hp with rfl | hp2
            · rcases List.mem_cons.mp hx with rfl | hx2
              · exact List.mem_cons_self _ _
              · exact List.mem_cons_of_mem c
                  (ih hd (hs ▸ List.mem_cons_self hd tl) hx2)
            · exact List.mem_cons_of_mem c
                (ih p (hs ▸ List.mem_cons_of_mem hd hp2) hx)

/-- Splitting a separator-free string yields that single piece. -/
theorem splitSep_no_sep (sep : Char) (f : List Char) (h : sep ∉ f) :
    splitSep sep f = [f] := by
  induction f with
  | nil => rfl
  | cons c cs ih =>
      have hc : c ≠ sep := by
        rintro rfl
        exact h (List.mem_cons_self _ _)
      rw [splitSep, ih fun hm => h (List.mem_cons_of_mem c hm)]
      simp [hc]

/-- Splitting after a separator-free prefix peels that piece off. -/
theorem splitSep_append (sep : Char) (f rest : List Char)
    (h : sep ∉ f) :
    splitSep sep (f ++ sep :: rest) = f :: splitSep sep rest := by
  induction f with
  | nil =>
      cases hs : splitSep sep rest with
      | nil => exact absurd hs (splitSep_ne_nil sep rest)
      | cons hd tl => simp [splitSep, hs]
  | cons c cs ih =>
      have hc : c ≠ sep := by
        rintro rfl
        exact h (List.mem_cons_self _ _)
      have ih2 := ih fun hm => h (List.mem_cons_of_mem c hm)
      rw [List.cons_append, splitSep, ih2]
      simp [hc]

/-- `splitFirst` of a separator-free string finds nothing. -/
theorem splitFirst_no_sep (sep : Char) (cs : List Char)
    (h : sep ∉ cs) : splitFirst sep cs = (cs, none) := by
  induction cs with
  | nil => rfl
  | cons c cs ih =>
      have hc : c ≠ sep := by
        rintro rfl
        exact h (List.mem_cons_self _ _)
      rw [splitFirst, if_neg hc, ih fun hm => h (List.mem_cons_of_mem c hm)]

/-- `splitFirst` cuts at the first separator. -/
theorem splitFirst_append (sep : Char) (pre post : List Char)
    (h : sep ∉ pre) :
    splitFirst sep (pre ++ sep :: post) = (pre, some post) := by
  induction pre with
  | nil => simp [splitFirst]
  | cons c cs ih =>
      have hc : c ≠ sep := by
        rintro rfl
        exact h (List.mem_cons_self _ _)
      rw [List.cons_append, splitFirst, if_neg hc,
        ih fun hm => h (List.mem_cons_of_mem c hm)]

/-- Both halves of `splitFirst` are made of input characters. -/
theorem splitFirst_mem (sep : Char) (cs : List Char) :
    (∀ x ∈ (splitFirst sep cs).1, x ∈ cs) ∧
    (∀ ps, (splitFirst sep cs).2 = some ps → ∀ x ∈ ps, x ∈ cs) := by
  induction cs with
  | nil =>
      refine ⟨fun x hx => hx, fun ps hps => ?_⟩
      cases hps
  | cons c cs ih =>
      rw [splitFirst]
      split
      · refine ⟨fun x hx => absurd hx (List.not_mem_nil x),
          fun ps hps x hx => ?_⟩
        cases hps
        exact List.mem_cons_of_mem c hx
      · refine ⟨fun x hx => ?_, fun ps hps x hx => ?_⟩
        · rcases List.mem_cons.mp hx with rfl | hx
          · exact List.mem_cons_self _ _
          · exact List.mem_cons_of_mem c (ih.1 x hx)
        · exact List.mem_cons_of_mem c (ih.2 ps hps x hx)

/-- Splitting `'&'.join(fields)` on `&` recovers the fields when none
contains `&`. -/
theorem splitSep_joinAmp (fields : List (List Char))
    (hne : fields ≠ []) (h : ∀ f ∈ fields, '&' ∉ f) :
    splitSep '&' (joinAmp fields) = fields := by
  induction fields with
  | nil => cases hne rfl
  | cons f fs ih =>
      cases fs with
      | nil => exact splitSep_no_sep '&' f (h f (List.mem_cons_self f []))
      | cons g gs =>
          have hjoin : joinAmp (f :: g :: gs)
              = f ++ '&' :: joinAmp (g :: gs) := rfl
          rw [hjoin,
            splitSep_append '&' f _ (h f (List.mem_cons_self f _)),
            ih (by simp) fun p hp => h p (List.mem_cons_of_mem f hp)]

/-- Fields free of `;` survive the secondary `;`-split unchanged. -/
theorem flatMap_splitSemi (fields : List (List Char))
    (h : ∀ f ∈ fields, ';' ∉ f) :
    fields.flatMap (splitSep ';') = fields := by
  induction fields with
  | nil => rfl
  | cons f fs ih =>
      rw [List.flatMap_cons,
        splitSep_no_sep ';' f (h f (List.mem_cons_self f fs)),
        ih fun p hp => h p (List.mem_cons_of_mem f hp)]
      rfl

/-- Every character of an encoded `k=v` field is `=`, `+`, `%`, or a
safe character. -/
theorem mem_encodeField (k v : String)
    (hk : ∀ c ∈ k.data, c.toNat < 256) (hv : ∀ c ∈ v.data, c.toNat < 256)
    (x : Char) (hx : x ∈ encodeField k v) :
    x = '=' ∨ x = '+' ∨ x = '%' ∨ alwaysSafe x = true := by
  rw [encodeField, List.mem_append] at hx
  rcases hx with hx | hx
  · exact Or.inr (mem_quotePlusChars k.data hk x hx)
  · rcases List.mem_cons.mp hx with rfl | hx
    · exact Or.inl rfl
    · exact Or.inr (mem_quotePlusChars v.data hv x hx)

/-- Encoded fields contain neither `&` nor `;`. -/
theorem encodeField_sep_free (k v : String)
    (hk : ∀ c ∈ k.data, c.toNat < 256)
    (hv : ∀ c ∈ v.data, c.toNat < 256) :
    '&' ∉ encodeField k v ∧ ';' ∉ encodeField k v := by
  constructor <;> intro hmem <;>
    rcases mem_encodeField k v hk hv _ hmem with h | h | h | h <;>
    exact absurd h (by decide)

/-- Processing an encoded field recovers the decoded pair, dropping
empty values. -/
theorem qslStep_encodeField (k v : String)
    (hk : ∀ c ∈ k.data, c.toNat < 256)
    (hv : ∀ c ∈ v.data, c.toNat < 256) :
    qslStep (encodeField k v) = if v = "" then none else some (k, v) := by
  have hne : encodeField k v ≠ [] := by
    simp [encodeField]
  rw [qslStep, if_neg hne]
  have hsf : splitFirst '=' (encodeField k v)
      = (quotePlusChars k.data, some (quotePlusChars v.data)) := by
    rw [encodeField]
    refine splitFirst_append '=' _ _ fun hmem => ?_
    rcases mem_quotePlusChars k.data hk _ hmem with h | h | h <;>
      exact absurd h (by decide)
  rw [hsf]
  show (if quotePlusChars v.data = [] then none
    else some ((⟨unquotePlusChars (quotePlusChars k.data)⟩ : String),
      (⟨unquotePlusChars (quotePlusChars v.data)⟩ : String)))
    = if v = "" then none else some (k, v)
  by_cases hv0 : v = ""
  · subst hv0
    simp [quotePlusChars]
  · have hvd : v.data ≠ [] := by
      intro hd
      exact hv0 (String.ext hd)
    rw [if_neg fun hq => hvd ((quotePlusChars_eq_nil_iff v.data).mp hq),
      if_neg hv0, unquotePlus_quotePlus k.data hk,
      unquotePlus_quotePlus v.data hv]

/-- The pairs `parse_qsl` recovers from `urlencode(d, doseq=True)`:
each entry contributes its value strings with empty ones dropped. -/
def decodedPairs (d : QDict) : List (String × String) :=
  d.flatMap fun p => (valStrings p.2).filterMap fun v =>
    if v = "" then none else some (p.1, v)

/-- If an encoding is empty then so is the decoding. -/
theorem encodePairs_nil_decoded (d : QDict) (h : encodePairs d = []) :
    decodedPairs d = [] := by
  induction d with
  | nil => rfl
  | cons p rest ih =>
      rw [encodePairs, List.flatMap_cons] at h
      obtain ⟨h1, h2⟩ := List.append_eq_nil.mp h
      have hvs : valStrings p.2 = [] := List.map_eq_nil_iff.mp h1
      rw [decodedPairs, List.flatMap_cons, hvs]
      exact ih h2

/-- Field-by-field decoding of an encoded dict. -/
theorem filterMap_encodePairs (d : QDict)
    (hb : ∀ p ∈ d, (∀ c ∈ p.1.data, c.toNat < 256) ∧
      ∀ v ∈ valStrings p.2, ∀ c ∈ v.data, c.toNat < 256) :
    (encodePairs d).filterMap qslStep = decodedPairs d := by
  induction d with
  | nil => rfl
  | cons p rest ih =>
      rw [encodePairs, List.flatMap_cons, List.filterMap_append,
        List.filterMap_map, decodedPairs, List.flatMap_cons]
      have hp := hb p (List.mem_cons_self p rest)
      congr 1
      · refine List.filterMap_congr fun v hvmem => ?_
        exact qslStep_encodeField p.1 v hp.1 (hp.2 v hvmem)
      · exact ih fun q hq => hb q (List.mem_cons_of_mem p hq)

/-- `parse_qsl` inverts `urlencode(_, doseq=True)` up to dropping
empty values, for byte-string dicts. -/
theorem parseQsl_urlencode (d : QDict)
    (hb : ∀ p ∈ d, (∀ c ∈ p.1.data, c.toNat < 256) ∧
      ∀ v ∈ valStrings p.2, ∀ c ∈ v.data, c.toNat < 256) :
    parseQsl (urlencodeDoseq d) = decodedPairs d := by
  have hfieldchars : ∀ f ∈ encodePairs d, '&' ∉ f ∧ ';' ∉ f := by
    intro f hf
    rw [encodePairs, List.mem_flatMap] at hf
    obtain ⟨p, hp, hf2⟩ := hf
    rw [List.mem_map] at hf2
    obtain ⟨v, hv, rfl⟩ := hf2
    exact encodeField_sep_free p.1 v (hb p hp).1 ((hb p hp).2 v hv)
  by_cases hfe : encodePairs d = []
  · have h1 : urlencodeDoseq d = "" := by
      rw [urlencodeDoseq, hfe]
      rfl
    rw [h1, encodePairs_nil_decoded d hfe]
    rfl
  · have hqs : (urlencodeDoseq d).data = joinAmp (encodePairs d) := rfl
    rw [parseQsl, hqs,
      splitSep_joinAmp _ hfe fun f hf => (hfieldchars f hf).1,
      flatMap_splitSemi _ fun f hf => (hfieldchars f hf).2]
    exact filterMap_encodePairs d hb

/-! ### Dict lemmas -/

/-- Keys of a dict, in order. -/
def qkeys (d : QDict) : List String := d.map Prod.fst

/-- The shape `parse_qs` gives a dict: every value a list. -/
def groupForm (d : QDict) : QDict :=
  d.map fun p => (p.1, QVal.lst (valStrings p.2))

/-- Appending under a fresh key adds a singleton entry at the end. -/
theorem qdictAppend_fresh (d : QDict) (k : String) (v : String)
    (h : k ∉ qkeys d) :
    qdictAppend d k v = d ++ [(k, QVal.lst [v])] := by
  induction d with
  | nil => rfl
  | cons p rest ih =>
      have hk : p.1 ≠ k := by
        rintro rfl
        exact h (List.mem_cons_self _ _)
      have hrest : k ∉ qkeys rest := fun hm =>
        h (List.mem_cons_of_mem _ hm)
      rcases p with ⟨k0, w⟩
      rcases w with v0 | vs0 <;>
        simp only [qdictAppend, if_neg hk, ih hrest, List.cons_append]

/-- Appending under the key of the last entry extends that entry. -/
theorem qdictAppend_last (base : QDict) (k : String) (u : List String)
    (v : String) (h : k ∉ qkeys base) :
    qdictAppend (base ++ [(k, QVal.lst u)]) k v
      = base ++ [(k, QVal.lst (u ++ [v]))] := by
  induction base with
  | nil => simp [qdictAppend]
  | cons p rest ih =>
      have hk : p.1 ≠ k := by
        rintro rfl
        exact h (List.mem_cons_self _ _)
      have hrest : k ∉ qkeys rest := fun hm =>
        h (List.mem_cons_of_mem _ hm)
      rcases p with ⟨k0, w⟩
      rcases w with v0 | vs0 <;>
        · simp only [List.cons_append, qdictAppend, if_neg hk]
          exact congrArg _ (ih hrest)

/-- Folding a run of pairs with one fresh key extends its entry. -/
theorem foldl_qdictAppend_run (base : QDict) (k : String)
    (u vs : List String) (hk : k ∉ qkeys base) :
    List.foldl (fun d p => qdictAppend d p.1 p.2)
      (base ++ [(k, QVal.lst u)]) (vs.map fun v => (k, v))
      = base ++ [(k, QVal.lst (u ++ vs))] := by
  induction vs generalizing u with
  | nil => simp
  | cons v vs ih =>
      rw [List.map_cons, List.foldl_cons]
      show List.foldl _ (qdictAppend (base ++ [(k, QVal.lst u)]) k v) _
        = _
      rw [qdictAppend_last base k u v hk, ih (u ++ [v])]
      simp

/-- With no empty values, decoding drops nothing. -/
theorem decodedPairs_no_drop (d : QDict)
    (h : ∀ p ∈ d, ∀ v ∈ valStrings p.2, v ≠ "") :
    decodedPairs d
      = d.flatMap fun p => (valStrings p.2).map fun v => (p.1, v) := by
  induction d with
  | nil => rfl
  | cons p rest ih =>
      rw [decodedPairs, List.flatMap_cons, List.flatMap_cons]
      have hp := h p (List.mem_cons_self p rest)
      congr 1
      · rw [List.filterMap_congr
          (g := fun v => some (p.1, v))
          fun v hv => by rw [if_neg (hp v hv)]]
        exact congrFun (List.filterMap_eq_map fun v => (p.1, v))
          (valStrings p.2)
      · rw [decodedPairs] at ih
        exact ih fun q hq => h q (List.mem_cons_of_mem p hq)

/-- Grouping the flattened pairs of a key-distinct dict recovers it. -/
theorem foldl_flat_group (d : QDict) (acc : QDict)
    (hnd : (qkeys d).Nodup)
    (hdisj : ∀ k ∈ qkeys d, k ∉ qkeys acc)
    (hval : ∀ p ∈ d, valStrings p.2 ≠ []) :
    List.foldl (fun a p => qdictAppend a p.1 p.2) acc
      (d.flatMap fun p => (valStrings p.2).map fun v => (p.1, v))
      = acc ++ groupForm d := by
  induction d generalizing acc with
  | nil => simp [groupForm]
  | cons p rest ih =>
      rw [List.flatMap_cons, List.foldl_append]
      obtain ⟨v0, vs', hvs⟩ : ∃ v0 vs', valStrings p.2 = v0 :: vs' := by
        cases hvv : valStrings p.2 with
        | nil => exact absurd hvv (hval p (List.mem_cons_self p rest))
        | cons a b => exact ⟨a, b, rfl⟩
      have hk : p.1 ∉ qkeys acc :=
        hdisj p.1 (List.mem_cons_self _ _)
      rw [hvs, List.map_cons, List.foldl_cons]
      have h1 : qdictAppend acc p.1 v0 = acc ++ [(p.1, QVal.lst [v0])] :=
        qdictAppend_fresh acc p.1 v0 hk
      show List.foldl _ (List.foldl _ (qdictAppend acc p.1 v0)
        (vs'.map fun v => (p.1, v))) _ = _
      rw [h1, foldl_qdictAppend_run acc p.1 [v0] vs' hk]
      simp only [List.singleton_append]
      have hnd2 : (qkeys rest).Nodup := (List.nodup_cons.mp hnd).2
      have hp1 : p.1 ∉ qkeys rest := (List.nodup_cons.mp hnd).1
      rw [ih (acc ++ [(p.1, QVal.lst (v0 :: vs'))]) hnd2
        (fun k hkr => by
          rw [qkeys, List.map_append, List.mem_append]
          rintro (hmem | hmem)
          · exact hdisj k (List.mem_cons_of_mem _ hkr) hmem
          · simp only [List.map_cons, List.map_nil,
              List.mem_singleton] at hmem
            exact hp1 (hmem ▸ hkr))
        (fun q hq => hval q (List.mem_cons_of_mem p hq))]
      rw [List.append_assoc, List.singleton_append]
      simp [groupForm, hvs]

/-- `parse_qs ∘ urlencode(_, doseq=True)` regroups a wellformed dict
into its `parse_qs` shape. -/
theorem parseQs_urlencode (d : QDict)
    (hnd : (qkeys d).Nodup)
    (hval : ∀ p ∈ d, valStrings p.2 ≠ [] ∧ ∀ v ∈ valStrings p.2, v ≠ "")
    (hb : ∀ p ∈ d, (∀ c ∈ p.1.data, c.toNat < 256) ∧
      ∀ v ∈ valStrings p.2, ∀ c ∈ v.data, c.toNat < 256) :
    parseQs (urlencodeDoseq d) = groupForm d := by
  rw [parseQs, parseQsl_urlencode d hb,
    decodedPairs_no_drop d fun p hp => (hval p hp).2,
    foldl_flat_group d [] hnd (by simp [qkeys])
      fun p hp => (hval p hp).1]
  rfl

/-- Lookup through the `parse_qs` regrouping. -/
theorem qdictLookup_groupForm (d : QDict) (n : String) :
    qdictLookup (groupForm d) n
      = (qdictLookup d n).map fun v => QVal.lst (valStrings v) := by
  induction d with
  | nil => rfl
  | cons p rest ih =>
      rw [groupForm, List.map_cons, qdictLookup, qdictLookup]
      by_cases h : p.1 = n
      · rw [if_pos h, if_pos h]
        rfl
      · rw [if_neg h, if_neg h, ← groupForm, ih]

/-- Lookup after a dict assignment. -/
theorem qdictLookup_qdictSet (d : QDict) (k : String) (v : QVal)
    (n : String) :
    qdictLookup (qdictSet d k v) n
      = if k = n then some v else qdictLookup d n := by
  induction d with
  | nil => rfl
  | cons p rest ih =>
      rcases p with ⟨k0, w⟩
      rw [qdictSet]
      by_cases h0 : k0 = k
      · subst h0
        rw [if_pos rfl, qdictLookup, qdictLookup]
        by_cases hkn : k0 = n
        · simp [hkn]
        · simp [hkn]
      · rw [if_neg h0, qdictLookup, qdictLookup]
        by_cases hn : k0 = n
        · have hkn : ¬k = n := fun hkn => h0 (hn.trans hkn.symm)
          simp [hn, hkn]
        · simp [hn, ih]

/-- Entries of a dict after an assignment. -/
theorem mem_qdictSet (d : QDict) (k : String) (v : QVal)
    (p : String × QVal) (hp : p ∈ qdictSet d k v) :
    p = (k, v) ∨ p ∈ d := by
  induction d with
  | nil =>
      simp only [qdictSet, List.mem_singleton] at hp
      exact Or.inl hp
  | cons q rest ih =>
      rcases q with ⟨k0, w⟩
      rw [qdictSet] at hp
      split at hp
      · rcases List.mem_cons.mp hp with rfl | hp
        · exact Or.inl rfl
        · exact Or.inr (List.mem_cons_of_mem _ hp)
      · rcases List.mem_cons.mp hp with rfl | hp
        · exact Or.inr (List.mem_cons_self _ _)
        · rcases ih hp with h | h
          · exact Or.inl h
          · exact Or.inr (List.mem_cons_of_mem _ h)

/-- Keys after an assignment come from the old keys or are the new
key. -/
theorem qkeys_qdictSet_subset (d : QDict) (k : String) (v : QVal)
    (x : String) (hx : x ∈ qkeys (qdictSet d k v)) :
    x ∈ qkeys d ∨ x = k := by
  induction d with
  | nil =>
      simp only [qdictSet, qkeys, List.map_cons, List.map_nil,
        List.mem_singleton] at hx
      exact Or.inr hx
  | cons q rest ih =>
      rcases q with ⟨k0, w⟩
      rw [qdictSet] at hx
      split at hx
      · next h0 =>
          rcases List.mem_cons.mp hx with rfl | hx
          · exact Or.inr rfl
          · exact Or.inl (List.mem_cons_of_mem _ hx)
      · rcases List.mem_cons.mp hx with rfl | hx
        · exact Or.inl (List.mem_cons_self _ _)
        · rcases ih hx with h | h
          · exact Or.inl (List.mem_cons_of_mem _ h)
          · exact Or.inr h

/-- Assignment keeps keys distinct. -/
theorem qkeys_qdictSet_nodup (d : QDict) (hnd : (qkeys d).Nodup)
    (k : String) (v : QVal) : (qkeys (qdictSet d k v)).Nodup := by
  induction d with
  | nil => simp [qdictSet, qkeys]
  | cons q rest ih =>
      rcases q with ⟨k0, w⟩
      have hnd0 := List.nodup_cons.mp hnd
      rw [qdictSet]
      split
      · next h0 =>
          subst h0
          exact hnd
      · next h0 =>
          rw [qkeys, List.map_cons, List.nodup_cons]
          refine ⟨fun hmem => ?_, ih hnd0.2⟩
          rcases qkeys_qdictSet_subset rest k v k0 hmem with h | h
          · exact hnd0.1 h
          · exact h0 h

/-- A successful lookup locates an entry. -/
theorem qdictLookup_mem (d : QDict) (n : String) (w : QVal)
    (h : qdictLookup d n = some w) : (n, w) ∈ d := by
  induction d with
  | nil => cases h
  | cons p rest ih =>
      rcases p with ⟨k0, v0⟩
      rw [qdictLookup] at h
      split at h
      · next hk =>
          cases h
          exact hk ▸ List.mem_cons_self _ _
      · exact List.mem_cons_of_mem _ (ih h)

/-- Wellformedness of a `parse_qs` result over a byte query string:
distinct keys, every value a non-empty list of non-empty byte strings,
every key a byte string. -/
def GoodDict (d : QDict) : Prop :=
  (qkeys d).Nodup ∧
  (∀ p ∈ d, ∃ vs, p.2 = QVal.lst vs ∧ vs ≠ [] ∧
    ∀ v ∈ vs, v ≠ "" ∧ ∀ c ∈ v.data, c.toNat < 256) ∧
  ∀ p ∈ d, ∀ c ∈ p.1.data, c.toNat < 256

/-- Keys after the `parse_qs` accumulation step come from the old keys
or are the new name. -/
theorem qkeys_qdictAppend_subset (d : QDict) (nm v : String)
    (x : String) (hx : x ∈ qkeys (qdictAppend d nm v)) :
    x ∈ qkeys d ∨ x = nm := by
  induction d with
  | nil =>
      simp only [qdictAppend, qkeys, List.map_cons, List.map_nil,
        List.mem_singleton] at hx
      exact Or.inr hx
  | cons q rest ih =>
      rcases q with ⟨k0, w⟩
      rcases w with v0 | vs0 <;>
      · rw [qdictAppend] at hx
        split at hx
        · rcases List.mem_cons.mp hx with rfl | hx
          · exact Or.inl (List.mem_cons_self _ _)
          · exact Or.inl (List.mem_cons_of_mem _ hx)
        · rcases List.mem_cons.mp hx with rfl | hx
          · exact Or.inl (List.mem_cons_self _ _)
          · rcases ih hx with h | h
            · exact Or.inl (List.mem_cons_of_mem _ h)
            · exact Or.inr h

/-- The `parse_qs` accumulation step preserves wellformedness when fed
a non-empty byte name and value. -/
theorem qdictAppend_good (d : QDict) (nm v : String)
    (hd : GoodDict d) (hv : v ≠ "") (hvb : ∀ c ∈ v.data, c.toNat < 256)
    (hnm : ∀ c ∈ nm.data, c.toNat < 256) :
    GoodDict (qdictAppend d nm v) := by
  induction d with
  | nil =>
      refine ⟨by simp [qdictAppend, qkeys], ?_, ?_⟩
      · intro p hp
        simp only [qdictAppend, List.mem_singleton] at hp
        subst hp
        exact ⟨[v], rfl, by simp, fun w hw => by
          rcases List.mem_singleton.mp hw with rfl
          exact ⟨hv, hvb⟩⟩
      · intro p hp
        simp only [qdictAppend, List.mem_singleton] at hp
        subst hp
        exact hnm
  | cons q rest ih =>
      obtain ⟨hnd, hvals, hkeys⟩ := hd
      have hnd0 := List.nodup_cons.mp hnd
      have hrest : GoodDict rest :=
        ⟨hnd0.2, fun p hp => hvals p (List.mem_cons_of_mem q hp),
         fun p hp => hkeys p (List.mem_cons_of_mem q hp)⟩
      obtain ⟨vs0, hq2, hvs0ne, hvs0⟩ :=
        hvals q (List.mem_cons_self q rest)
      rcases q with ⟨k0, w⟩
      cases hq2
      rw [qdictAppend]
      by_cases h0 : k0 = nm
      · rw [if_pos h0]
        refine ⟨hnd, ?_, ?_⟩
        · intro p hp
          rcases List.mem_cons.mp hp with rfl | hp
          · refine ⟨vs0 ++ [v], rfl, by simp, fun w hw => ?_⟩
            rcases List.mem_append.mp hw with hw | hw
            · exact hvs0 w hw
            · rcases List.mem_singleton.mp hw with rfl
              exact ⟨hv, hvb⟩
          · exact hvals p (List.mem_cons_of_mem _ hp)
        · intro p hp
          rcases List.mem_cons.mp hp with rfl | hp
          · exact hkeys (k0, QVal.lst vs0) (List.mem_cons_self _ _)
          · exact hkeys p (List.mem_cons_of_mem _ hp)
      · rw [if_neg h0]
        obtain ⟨hnd2, hvals2, hkeys2⟩ := ih hrest
        refine ⟨?_, ?_, ?_⟩
        · rw [qkeys, List.map_cons, List.nodup_cons]
          refine ⟨fun hmem => ?_, hnd2⟩
          rcases qkeys_qdictAppend_subset rest nm v k0 hmem with h | h
          · exact hnd0.1 h
          · exact h0 h
        · intro p hp
          rcases List.mem_cons.mp hp with rfl | hp
          · exact ⟨vs0, rfl, hvs0ne, hvs0⟩
          · exact hvals2 p hp
        · intro p hp
          rcases List.mem_cons.mp hp with rfl | hp
          · exact hkeys (k0, QVal.lst vs0) (List.mem_cons_self _ _)
          · exact hkeys2 p hp

/-- Folding `parse_qs`'s accumulation over good pairs preserves
wellformedness. -/
theorem foldl_qdictAppend_good (pairs : List (String × String))
    (acc : QDict) (hacc : GoodDict acc)
    (hp : ∀ pr ∈ pairs, pr.2 ≠ "" ∧
      (∀ c ∈ pr.1.data, c.toNat < 256) ∧
      ∀ c ∈ pr.2.data, c.toNat < 256) :
    GoodDict (List.foldl (fun d p => qdictAppend d p.1 p.2) acc pairs)
    := by
  induction pairs generalizing acc with
  | nil => exact hacc
  | cons pr rest ih =>
      rw [List.foldl_cons]
      have h1 := hp pr (List.mem_cons_self pr rest)
      exact ih _ (qdictAppend_good acc pr.1 pr.2 hacc h1.1 h1.2.2 h1.2.1)
        fun q hq => hp q (List.mem_cons_of_mem pr hq)

/-- Every pair `parse_qsl` recovers from a byte query string has a
non-empty byte value and a byte name. -/
theorem parseQsl_pairs_good (qs : String)
    (hb : ∀ c ∈ qs.data, c.toNat < 256) :
    ∀ pr ∈ parseQsl qs, pr.2 ≠ "" ∧
      (∀ c ∈ pr.1.data, c.toNat < 256) ∧
      ∀ c ∈ pr.2.data, c.toNat < 256 := by
  intro pr hpr
  rw [parseQsl, List.mem_filterMap] at hpr
  obtain ⟨nv, hnv, hstep⟩ := hpr
  have hnvchars : ∀ x ∈ nv, x ∈ qs.data := by
    rw [List.mem_flatMap] at hnv
    obtain ⟨s1, hs1, hnv2⟩ := hnv
    intro x hx
    exact mem_of_mem_splitSep '&' qs.data s1 hs1 x
      (mem_of_mem_splitSep ';' s1 nv hnv2 x hx)
  rw [qslStep] at hstep
  split at hstep
  · cases hstep
  · rcases hsf : splitFirst '=' nv with ⟨nm, vopt⟩
    rw [hsf] at hstep
    rcases vopt with _ | v
    · cases (show (none : Option (String × String)) = some pr from hstep)
    · have hm := splitFirst_mem '=' nv
      rw [hsf] at hm
      have hnm : ∀ x ∈ nm, x ∈ nv := hm.1
      have hvm : ∀ x ∈ v, x ∈ nv := hm.2 v rfl
      have hstep2 : (if v = [] then none
          else some ((⟨unquotePlusChars nm⟩ : String),
            (⟨unquotePlusChars v⟩ : String))) = some pr := hstep
      by_cases hvne : v = []
      · rw [if_pos hvne] at hstep2
        cases hstep2
      · rw [if_neg hvne] at hstep2
        have hpr : pr
            = ((⟨unquotePlusChars nm⟩ : String),
              (⟨unquotePlusChars v⟩ : String)) :=
          (Option.some.inj hstep2).symm
        subst hpr
        refine ⟨?_, ?_, ?_⟩
        · intro hemp
          exact unquotePlusChars_ne_nil v hvne
            (congrArg String.data hemp)
        · exact unquotePlusChars_bytes nm
            fun c hc => hb c (hnvchars c (hnm c hc))
        · exact unquotePlusChars_bytes v
            fun c hc => hb c (hnvchars c (hvm c hc))

/-- `parse_qs` of a byte query string is wellformed. -/
theorem parseQs_good (qs : String)
    (hb : ∀ c ∈ qs.data, c.toNat < 256) : GoodDict (parseQs qs) := by
  rw [parseQs]
  exact foldl_qdictAppend_good (parseQsl qs) []
    ⟨by simp [qkeys], by simp, by simp⟩ (parseQsl_pairs_good qs hb)

/-- C9 counterexample: a `redirect_uri` that already carries a `code`
query parameter does not keep it — `query['code'] = temp.auth_code`
overwrites it — so not every pre-existing query parameter survives
`code_redirect`. -/
theorem c9_counterexample :
    ({ reqEx with redirect_uri := "https://app/cb?code=old&x=1" } :
        AuthorizationRequest).code_redirect "abc"
      = "https://app/cb?code=abc&x=1&state=s1" ∧
    qdictLookup (parseQs (urlparseModel
        "https://app/cb?code=old&x=1").query) "code"
      = some (QVal.lst ["old"]) ∧
    qdictLookup (parseQs (urlparseModel
        ("https://app/cb?code=abc&x=1&state=s1" : String)).query) "code"
      = some (QVal.lst ["abc"]) := by
  refine ⟨?_, ?_, ?_⟩ <;> decide

/-- C9 amended: `code_redirect` rebuilds the redirect URI with `code`
and `state` set in the query — overwriting any pre-existing parameters
of those names — and every other decoded query parameter (`parse_qs`
drops blank-valued ones on both sides) is preserved with its values.
Byte-string hypotheses reflect Python 2 `str`s; non-emptiness of the
code and state keeps their own parameters decodable. -/
theorem c9_amended_code_redirect (req : AuthorizationRequest)
    (ac n : String)
    (hq : ∀ c ∈ (urlparseModel req.redirect_uri).query.data,
      c.toNat < 256)
    (hac : ∀ c ∈ ac.data, c.toNat < 256)
    (hst : ∀ c ∈ req.state.data, c.toNat < 256)
    (hacne : ac ≠ "") (hstne : req.state ≠ "")
    (hn1 : n ≠ "code") (hn2 : n ≠ "state") :
    req.code_redirect ac
      = urlunparseModel
          { urlparseModel req.redirect_uri with
            query := mergedQuery (urlparseModel req.redirect_uri).query
              ac req.state,
            fragment := "" } ∧
    qdictLookup (parseQs (mergedQuery
        (urlparseModel req.redirect_uri).query ac req.state)) "code"
      = some (QVal.lst [ac]) ∧
    qdictLookup (parseQs (mergedQuery
        (urlparseModel req.redirect_uri).query ac req.state)) "state"
      = some (QVal.lst [req.state]) ∧
    qdictLookup (parseQs (mergedQuery
        (urlparseModel req.redirect_uri).query ac req.state)) n
      = qdictLookup (parseQs (urlparseModel req.redirect_uri).query) n
    := by
  obtain ⟨hnd, hvals, hkeys⟩ :=
    parseQs_good (urlparseModel req.redirect_uri).query hq
  have hgroup :
      parseQs (mergedQuery (urlparseModel req.redirect_uri).query ac
          req.state)
        = groupForm (qdictSet (qdictSet
            (parseQs (urlparseModel req.redirect_uri).query)
            "code" (QVal.str ac)) "state" (QVal.str req.state)) := by
    refine parseQs_urlencode _ ?_ ?_ ?_
    · exact qkeys_qdictSet_nodup _
        (qkeys_qdictSet_nodup _ hnd "code" _) "state" _
    · intro p hp
      rcases mem_qdictSet _ _ _ p hp with rfl | hp2
      · refine ⟨by simp [valStrings], fun v hv => ?_⟩
        rcases List.mem_singleton.mp hv with rfl
        exact hstne
      · rcases mem_qdictSet _ _ _ p hp2 with rfl | hp3
        · refine ⟨by simp [valStrings], fun v hv => ?_⟩
          rcases List.mem_singleton.mp hv with rfl
          exact hacne
        · obtain ⟨vs, hvs, hne, hgood⟩ := hvals p hp3
          rw [hvs]
          exact ⟨by simpa [valStrings] using hne,
            fun v hv => (hgood v (by simpa [valStrings] using hv)).1⟩
    · intro p hp
      rcases mem_qdictSet _ _ _ p hp with rfl | hp2
      · refine ⟨?_, fun v hv => ?_⟩
        · exact (by decide :
            ∀ c ∈ ("state" : String).data, c.toNat < 256)
        · rcases List.mem_singleton.mp hv with rfl
          exact hst
      · rcases mem_qdictSet _ _ _ p hp2 with rfl | hp3
        · refine ⟨?_, fun v hv => ?_⟩
          · exact (by decide :
              ∀ c ∈ ("code" : String).data, c.toNat < 256)
          · rcases List.mem_singleton.mp hv with rfl
            exact hac
        · obtain ⟨vs, hvs, hne, hgood⟩ := hvals p hp3
          refine ⟨hkeys p hp3, fun v hv => ?_⟩
          rw [hvs] at hv
          exact (hgood v (by simpa [valStrings] using hv)).2
  refine ⟨rfl, ?_, ?_, ?_⟩
  · rw [hgroup, qdictLookup_groupForm, qdictLookup_qdictSet,
      if_neg (by decide), qdictLookup_qdictSet, if_pos rfl]
    rfl
  · rw [hgroup, qdictLookup_groupForm, qdictLookup_qdictSet, if_pos rfl]
    rfl
  · rw [hgroup, qdictLookup_groupForm, qdictLookup_qdictSet,
      if_neg fun h => hn2 h.symm, qdictLookup_qdictSet,
      if_neg fun h => hn1 h.symm]
    cases hl : qdictLookup
        (parseQs (urlparseModel req.redirect_uri).query) n with
    | none => rfl
    | some w =>
        obtain ⟨vs, hvs, _, _⟩ := hvals (n, w) (qdictLookup_mem _ _ _ hl)
        have hw : w = QVal.lst vs := hvs
        subst hw
        rfl

/-- Witness for `c9_amended_code_redirect` at the spec's concrete
request: the parameter `x=1` survives, `code`/`state` are set. -/
theorem c9_amended_code_redirect_witness :
    reqEx.code_redirect "abc"
      = urlunparseModel
          { urlparseModel reqEx.redirect_uri with
            query := mergedQuery (urlparseModel reqEx.redirect_uri).query
              "abc" reqEx.state,
            fragment := "" } ∧
    qdictLookup (parseQs (mergedQuery
        (urlparseModel reqEx.redirect_uri).query "abc" reqEx.state))
        "code" = some (QVal.lst ["abc"]) ∧
    qdictLookup (parseQs (mergedQuery
        (urlparseModel reqEx.redirect_uri).query "abc" reqEx.state))
        "state" = some (QVal.lst ["s1"]) ∧
    qdictLookup (parseQs (mergedQuery
        (urlparseModel reqEx.redirect_uri).query "abc" reqEx.state)) "x"
      = qdictLookup
          (parseQs (urlparseModel reqEx.redirect_uri).query) "x" := by
  exact c9_amended_code_redirect reqEx "abc" "x" (by decide) (by decide)
    (by decide) (by decide) (by decide) (by decide) (by decide)
